import Mathlib

/-!
Verification of the habit-tracker domain core.

Shallow embedding of the Python sources under `src/`:

* `core/domain/enums.py`      : `HabitType`, `Category`
* `core/domain/strategies.py` : the per-type strategies and their factory
* `core/domain/entities.py`   : `Habit` (leaf) and `HabitGroup` (composite)
* `core/use_cases/analytics.py`, `tracking.py`, `management.py`
* `runner/database.py`, `runner/main.py` (repository and endpoint glue)

Modelling conventions: calendar dates are integer day numbers (`Int`, one day
= one unit, so Python's `timedelta(days=1)` is subtraction of `1`); float
values are rationals (`ℚ`); a raised Python exception is an `Except` error
value; Python's `date.today()` becomes an explicit `today : Int` argument.
-/

/-- HabitType from `core/domain/enums.py`: the enumeration has exactly the
members BOOLEAN and NUMERIC. -/
inductive HabitType where
  | boolean
  | numeric
deriving DecidableEq, Repr

/-- Value of the string-valued enum member (`HabitType` subclasses `str`). -/
def HabitType.value : HabitType → String
  | .boolean => "boolean"
  | .numeric => "numeric"

/-- Category from `core/domain/enums.py`. -/
inductive Category where
  | health
  | learning
  | productivity
deriving DecidableEq, Repr

/-- Value of the string-valued enum member. -/
def Category.value : Category → String
  | .health => "health"
  | .learning => "learning"
  | .productivity => "productivity"

/-- Body of the `for log_date, value in sorted_logs` loop that the three
`calculate_streak` methods in `core/domain/strategies.py` share verbatim:
a matching expected date with a value meeting the target increments the
streak and moves the expected date one day back; a log strictly before the
expected date breaks the loop; anything else is skipped. -/
def streakLoop (target : ℚ) : List (Int × ℚ) → Int → Nat → Nat
  | [], _, streak => streak
  | (log_date, value) :: rest, expected_date, streak =>
    if log_date = expected_date ∧ target ≤ value then
      streakLoop target rest (expected_date - 1) (streak + 1)
    else if log_date < expected_date then
      streak
    else
      streakLoop target rest expected_date streak

/-- Insertion into a list already sorted by descending date, placed after every
entry whose date is strictly greater, so entries with equal dates keep their
original relative order (Python's sort is stable). -/
def insertByDateDesc (p : Int × ℚ) : List (Int × ℚ) → List (Int × ℚ)
  | [] => [p]
  | q :: rest => if p.1 < q.1 then q :: insertByDateDesc p rest else p :: q :: rest

/-- Embedding of `sorted(logs, key=lambda x: x[0], reverse=True)`: a stable
sort putting the most recent log first. -/
def sortByDateDesc : List (Int × ℚ) → List (Int × ℚ)
  | [] => []
  | p :: rest => insertByDateDesc p (sortByDateDesc rest)

/-- The shared body of `BooleanHabitStrategy.calculate_streak`,
`NumericHabitStrategy.calculate_streak` and
`TimeBasedHabitStrategy.calculate_streak` (the three Python methods are
textually identical): return 0 for an empty history, otherwise sort the logs
by descending date and run the counting loop starting from today. -/
def calculate_streak_impl (today : Int) (logs : List (Int × ℚ)) (target : ℚ) : Nat :=
  if logs = [] then 0
  else streakLoop target (sortByDateDesc logs) today 0

/-- HabitStrategy interface from `core/domain/strategies.py`: the three
abstract methods, with `calculate_streak` taking the current day explicitly
(the Python code reads `date.today()`). -/
structure HabitStrategy where
  is_completed : ℚ → ℚ → Bool
  validate_value : ℚ → Bool
  calculate_streak : Int → List (Int × ℚ) → ℚ → Nat

/-- BooleanHabitStrategy: values must be exactly 0.0 or 1.0. -/
def BooleanHabitStrategy : HabitStrategy where
  is_completed := fun value target => decide (target ≤ value)
  validate_value := fun value => decide (value = 0 ∨ value = 1)
  calculate_streak := calculate_streak_impl

/-- NumericHabitStrategy: values must be non-negative. -/
def NumericHabitStrategy : HabitStrategy where
  is_completed := fun value target => decide (target ≤ value)
  validate_value := fun value => decide (0 ≤ value)
  calculate_streak := calculate_streak_impl

/-- TimeBasedHabitStrategy: values must lie between 0.0 and 1440.0 minutes. -/
def TimeBasedHabitStrategy : HabitStrategy where
  is_completed := fun value target => decide (target ≤ value)
  validate_value := fun value => decide (0 ≤ value ∧ value ≤ 1440)
  calculate_streak := calculate_streak_impl

/-- Registered strategies, `HabitStrategyFactory._strategies`. -/
def factoryStrategies : List (String × HabitStrategy) :=
  [("boolean", BooleanHabitStrategy),
   ("numeric", NumericHabitStrategy),
   ("time", TimeBasedHabitStrategy)]

/-- Lowercasing of a tag string (`habit_type.lower()` in Python), written as a
character-by-character map so that it reduces in the kernel. -/
def stringToLower (s : String) : String :=
  ⟨s.data.map Char.toLower⟩

/-- HabitStrategyFactory.create: look the lowercased tag up in the registry;
`none` models the raised `ValueError` for an unknown habit type. -/
def HabitStrategyFactory.create (habit_type : String) : Option HabitStrategy :=
  factoryStrategies.lookup (stringToLower habit_type)

/-- Log entry from `core/domain/entities.py`. -/
structure Log where
  date : Int
  value : ℚ
deriving DecidableEq, Repr

/-- Habit leaf from `core/domain/entities.py` (the `_strategy` field is
recovered from `habit_type`, as `__post_init__` does). -/
structure Habit where
  id : String
  name : String
  description : String
  category : Category
  habit_type : HabitType
  target : ℚ
  created_at : Int
  logs : List Log
deriving Repr

/-- Factory lookup used by `Habit.__post_init__` always succeeds, because
every `HabitType` member's value is a registered tag. -/
theorem create_habitType_isSome (t : HabitType) :
    (HabitStrategyFactory.create t.value).isSome := by
  cases t <;> rfl

/-- Strategy attached by `Habit.__post_init__`:
`HabitStrategyFactory.create(self.habit_type.value)`. -/
def Habit.strategy (h : Habit) : HabitStrategy :=
  (HabitStrategyFactory.create h.habit_type.value).get (create_habitType_isSome h.habit_type)

/-- Habit._get_validation_hint. -/
def Habit.get_validation_hint (h : Habit) : String :=
  if h.habit_type.value = "boolean" then "0.0 or 1.0 only"
  else if h.habit_type.value = "numeric" then "any non-negative number"
  else if h.habit_type.value = "time" then "0.0 to 1440.0 (minutes)"
  else "check habit type documentation"

/-- Update loop of `Habit.add_log`: overwrite the value of the first log with
this date, or append a fresh entry at the end. -/
def updateLogs (logs : List Log) (log_date : Int) (value : ℚ) : List Log :=
  match logs with
  | [] => [⟨log_date, value⟩]
  | log :: rest =>
    if log.date = log_date then ⟨log.date, value⟩ :: rest
    else log :: updateLogs rest log_date value

/-- Data carried by the `ValueError` raised in `Habit.add_log`; its message
interpolates the offending value, the habit type, and the validation hint. -/
structure ValidationError where
  value : ℚ
  habit_type : HabitType
  hint : String
deriving DecidableEq, Repr

/-- Habit.add_log: reject the value if the strategy's validation fails
(raising, so the logs are untouched), otherwise overwrite-or-append. -/
def Habit.add_log (h : Habit) (log_date : Int) (value : ℚ) : Except ValidationError Habit :=
  if ! h.strategy.validate_value value then
    .error ⟨value, h.habit_type, h.get_validation_hint⟩
  else
    .ok { h with logs := updateLogs h.logs log_date value }

/-- Lookup loop of `Habit.get_progress`: value of the first log with this
date, or 0.0 when absent. -/
def getProgressLogs (logs : List Log) (target_date : Int) : ℚ :=
  match logs with
  | [] => 0
  | log :: rest =>
    if log.date = target_date then log.value else getProgressLogs rest target_date

/-- Habit.get_progress. -/
def Habit.get_progress (h : Habit) (target_date : Int) : ℚ :=
  getProgressLogs h.logs target_date

/-- Habit.is_completed: delegate to the strategy on the logged value and the
target. -/
def Habit.is_completed (h : Habit) (target_date : Int) : Bool :=
  h.strategy.is_completed (h.get_progress target_date) h.target

/-- Habit.calculate_streak: delegate to the strategy on the full log history
as (date, value) pairs. -/
def Habit.calculate_streak (h : Habit) (today : Int) : Nat :=
  h.strategy.calculate_streak today (h.logs.map (fun log => (log.date, log.value))) h.target

/-- HabitComponent hierarchy from `core/domain/base.py` and
`core/domain/entities.py`: a leaf `Habit` or a `HabitGroup` carrying its
identity fields and the ordered `habits` list of children (which may nest). -/
inductive Item where
  | habit (data : Habit)
  | group (id name description : String) (created_at : Int) (habits : List Item)

/-- Name of either variant (`self.name`). -/
def Item.name : Item → String
  | .habit data => data.name
  | .group _ n _ _ _ => n

/-- Identifier of either variant (`self.id`). -/
def Item.id : Item → String
  | .habit data => data.id
  | .group i _ _ _ _ => i

mutual

/-- is_completed over the composite: a leaf delegates to its strategy on the
logged value, a group (`HabitGroup.is_completed`) returns False when empty
and otherwise requires every child to be completed. -/
def Item.is_completed : Item → Int → Bool
  | .habit data, target_date => data.is_completed target_date
  | .group _ _ _ _ habits, target_date =>
    if habits.isEmpty then false else Item.allCompleted habits target_date

/-- Embedding of `all(h.is_completed(target_date) for h in self.habits)`. -/
def Item.allCompleted : List Item → Int → Bool
  | [], _ => true
  | h :: rest, target_date => Item.is_completed h target_date && Item.allCompleted rest target_date

end

/-- get_progress over the composite: a leaf returns its logged value; a group
(`HabitGroup.get_progress`) returns 0.0 when empty and otherwise the count of
completed direct children over the child count, times 100. -/
def Item.get_progress : Item → Int → ℚ
  | .habit data, target_date => data.get_progress target_date
  | .group _ _ _ _ habits, target_date =>
    if habits.isEmpty then 0
    else ((habits.countP (fun h => Item.is_completed h target_date) : ℚ) / (habits.length : ℚ)) * 100

/-- Values appearing in a report dictionary produced by the analytics
visitor in `core/use_cases/analytics.py`. -/
inductive RVal where
  | str (s : String)
  | num (q : ℚ)
  | int (n : Nat)
  | bool (b : Bool)
  | strList (l : List String)
deriving DecidableEq, Repr

/-- Round to the nearest integer with ties going to the even integer, the
behaviour of Python's builtin `round`. -/
def roundHalfEven (q : ℚ) : ℤ :=
  if q - ⌊q⌋ < 1/2 then ⌊q⌋
  else if 1/2 < q - ⌊q⌋ then ⌊q⌋ + 1
  else if ⌊q⌋ % 2 = 0 then ⌊q⌋ else ⌊q⌋ + 1

/-- Python `round(x, 2)`: round to two decimal places, ties to even. -/
def round2 (q : ℚ) : ℚ :=
  (roundHalfEven (q * 100) : ℚ) / 100

/-- StatisticsVisitor.visit_habit from `core/use_cases/analytics.py`, with
`today` standing for `date.today()`. -/
def StatisticsVisitor.visit_habit (today : Int) (habit : Habit) : List (String × RVal) :=
  let completions := habit.logs.countP (fun log => habit.target ≤ log.value)
  let current_streak := habit.calculate_streak today
  let avg_value : ℚ :=
    if habit.logs.isEmpty then 0
    else (habit.logs.map Log.value).sum / (habit.logs.length : ℚ)
  [("type", .str "habit"),
   ("name", .str habit.name),
   ("habit_type", .str habit.habit_type.value),
   ("category", .str habit.category.value),
   ("completions", .int completions),
   ("current_streak", .int current_streak),
   ("target", .num habit.target),
   ("average_value", .num (round2 avg_value)),
   ("total_logs", .int habit.logs.length),
   ("is_completed_today", .bool (habit.is_completed today))]

/-- StatisticsVisitor.visit_habit_group, taking the group's fields (the
Python method receives the `HabitGroup` object). -/
def StatisticsVisitor.visit_habit_group (today : Int) (id name description : String)
    (created_at : Int) (habits : List Item) : List (String × RVal) :=
  [("type", .str "routine"),
   ("name", .str name),
   ("sub_habits_count", .int habits.length),
   ("progress_today", .num (round2 ((Item.group id name description created_at habits).get_progress today))),
   ("is_completed_today", .bool ((Item.group id name description created_at habits).is_completed today)),
   ("sub_habits", .strList (habits.map Item.name))]

/-- accept_visitor from `core/use_cases/analytics.py`, dispatching on the
concrete variant (the `raise TypeError` branch is unreachable on this closed
sum of variants). -/
def accept_visitor (today : Int) : Item → List (String × RVal)
  | .habit data => StatisticsVisitor.visit_habit today data
  | .group i n desc c habits => StatisticsVisitor.visit_habit_group today i n desc c habits

/-- InMemoryHabitRepository storage (`runner/database.py`): an
insertion-ordered id-to-item association list models the Python dict. -/
abbrev Repo := List (String × Item)

/-- InMemoryHabitRepository.get_by_id. -/
def Repo.get_by_id (r : Repo) (habit_id : String) : Option Item :=
  r.lookup habit_id

/-- InMemoryHabitRepository.save: dict assignment keeps the position of an
existing key and appends a new key at the end. -/
def Repo.save (r : Repo) (item : Item) : Repo :=
  match r with
  | [] => [(item.id, item)]
  | (k, v) :: rest => if k = item.id then (k, item) :: rest else (k, v) :: Repo.save rest item

/-- InMemoryHabitRepository.delete: remove the key if present and report
whether anything was removed. -/
def Repo.delete (r : Repo) (habit_id : String) : Bool × Repo :=
  match r with
  | [] => (false, [])
  | (k, v) :: rest =>
    if k = habit_id then (true, rest)
    else
      let p := Repo.delete rest habit_id
      (p.1, (k, v) :: p.2)

/-- ProgressTracker.log_progress from `core/use_cases/tracking.py`: boolean
habits always replace the value for today, numeric habits accumulate or
replace per the flag; a missing id or a non-leaf item yields `none` with the
repository untouched; a `ValueError` raised by `add_log` propagates. -/
def ProgressTracker.log_progress (r : Repo) (today : Int) (habit_id : String)
    (value : ℚ) (accumulate : Bool) : Except ValidationError (Option ℚ × Repo) :=
  match r.get_by_id habit_id with
  | some (.habit habit) =>
    if habit.habit_type.value = "boolean" then
      match habit.add_log today value with
      | .error e => .error e
      | .ok habit2 => .ok (some value, r.save (.habit habit2))
    else
      let new_val := if accumulate then habit.get_progress today + value else value
      match habit.add_log today new_val with
      | .error e => .error e
      | .ok habit2 => .ok (some new_val, r.save (.habit habit2))
  | _ => .ok (none, r)

/-- HabitManager.add_to_routine from `core/use_cases/management.py`: append
the child to the group (`HabitGroup.add`) and save when the id denotes a
group, otherwise report `false` with the repository untouched. -/
def HabitManager.add_to_routine (r : Repo) (routine_id : String) (habit : Item) : Bool × Repo :=
  match r.get_by_id routine_id with
  | some (.group i n desc c habits) =>
    (true, r.save (.group i n desc c (habits ++ [habit])))
  | _ => (false, r)

/-- Error responses the handlers in `runner/main.py` produce: 404 not-found,
or 400 bad-request with its detail message (identifier interpolations in the
Python detail strings are omitted). -/
inductive ApiError where
  | notFound
  | badRequest (detail : String)
deriving DecidableEq, Repr

/-- Handler of `POST /habits/id/logs` in `runner/main.py` (accumulate keeps
its default True): a `none` from the tracker becomes a 404 when the id is
missing and otherwise the 400 routine-rejection; on success the handler
reports the new value and the completion flag; an uncaught `ValueError` from
`add_log` propagates in the outer layer. -/
def Api.log_progress (r : Repo) (today : Int) (habit_id : String) (value : ℚ) :
    Except ValidationError (Except ApiError ((ℚ × Bool) × Repo)) :=
  match ProgressTracker.log_progress r today habit_id value true with
  | .error e => .error e
  | .ok (result, r2) =>
    match result with
    | none =>
      match r2.get_by_id habit_id with
      | none => .ok (.error .notFound)
      | some _ => .ok (.error (.badRequest "Cannot log progress for routines, only individual habits"))
    | some new_val =>
      let is_completed :=
        match r2.get_by_id habit_id with
        | some (.habit habit2) => habit2.is_completed today
        | _ => false
      .ok (.ok ((new_val, is_completed), r2))

/-- Handler of `POST /habits/id/subhabits` in `runner/main.py`: create and
save the child (`HabitManager.create_habit`, with the fresh uuid and
`date.today()` default passed in as `new_id` and `created_at`), try to attach
it to the parent, and on failure delete the child again and report a 400. -/
def Api.add_sub_habit (r : Repo) (parent_id new_id name description : String)
    (category : Category) (habit_type : HabitType) (target : ℚ) (created_at : Int) :
    Except ApiError String × Repo :=
  let child : Item := .habit
    { id := new_id, name := name, description := description, category := category,
      habit_type := habit_type, target := target, created_at := created_at, logs := [] }
  let r1 := r.save child
  match HabitManager.add_to_routine r1 parent_id child with
  | (true, r2) => (.ok new_id, r2)
  | (false, r2) => (.error (.badRequest "Parent not found or is not a routine"), (r2.delete new_id).2)

/-- Value logged for a given day: the value of the first pair at that date. -/
def lookupDate (logs : List (Int × ℚ)) (d : Int) : Option ℚ :=
  match logs with
  | [] => none
  | (ld, v) :: rest => if ld = d then some v else lookupDate rest d

/-- Specification of the streak rule in the words of the spec: starting at
`day` and walking backward one calendar day at a time, count the days whose
logged value meets the target, stopping at the first missing day or the
first day whose value is below the target. `fuel` bounds the walk. -/
def streakSpecAux (target : ℚ) (logs : List (Int × ℚ)) : Nat → Int → Nat
  | 0, _ => 0
  | fuel + 1, day =>
    match lookupDate logs day with
    | some v => if target ≤ v then streakSpecAux target logs fuel (day - 1) + 1 else 0
    | none => 0

/-- Number of consecutive calendar days ending today whose logged value meets
the target; `logs.length + 1` fuel always suffices because every counted day
consumes a log entry at a distinct date. -/
def streakSpec (today : Int) (logs : List (Int × ℚ)) (target : ℚ) : Nat :=
  streakSpecAux target logs (logs.length + 1) today

/-- Number of log entries dated on or before `e`. -/
def datesLE (l : List (Int × ℚ)) (e : Int) : Nat :=
  l.countP (fun p => decide (p.1 ≤ e))

theorem datesLE_cons (q : Int × ℚ) (l : List (Int × ℚ)) (e : Int) :
    datesLE (q :: l) e = datesLE l e + if q.1 ≤ e then 1 else 0 := by
  simp [datesLE, List.countP_cons]

theorem datesLE_le_length (l : List (Int × ℚ)) (e : Int) :
    datesLE l e ≤ l.length :=
  List.countP_le_length _

theorem datesLE_mono (l : List (Int × ℚ)) (d e : Int) (h : d ≤ e) :
    datesLE l d ≤ datesLE l e := by
  induction l with
  | nil => simp [datesLE]
  | cons q rest ih =>
    rw [datesLE_cons, datesLE_cons]
    split_ifs <;> omega

theorem datesLE_lt_of_lookup (l : List (Int × ℚ)) (e : Int) (v : ℚ)
    (hl : lookupDate l e = some v) :
    datesLE l (e - 1) < datesLE l e := by
  induction l with
  | nil => simp [lookupDate] at hl
  | cons q rest ih =>
    obtain ⟨ld, w⟩ := q
    rw [datesLE_cons, datesLE_cons]
    by_cases h : ld = e
    · subst h
      have hmono := datesLE_mono rest (ld - 1) ld (by omega)
      simp only []
      split_ifs <;> omega
    · rw [lookupDate, if_neg h] at hl
      have := ih hl
      simp only []
      split_ifs <;> omega

theorem streakSpecAux_nil (t : ℚ) (fuel : Nat) (e : Int) :
    streakSpecAux t [] fuel e = 0 := by
  cases fuel <;> simp [streakSpecAux, lookupDate]

theorem streakSpecAux_cons_of_lt (t : ℚ) (d : Int) (v : ℚ) (rest : List (Int × ℚ)) :
    ∀ (fuel : Nat) (e : Int), e < d →
    streakSpecAux t ((d, v) :: rest) fuel e = streakSpecAux t rest fuel e := by
  intro fuel
  induction fuel with
  | zero => intro e _; rfl
  | succ f ih =>
    intro e he
    have hne : d ≠ e := by omega
    simp only [streakSpecAux, lookupDate, if_neg hne]
    cases hl : lookupDate rest e with
    | none => rfl
    | some w =>
      by_cases hv : t ≤ w
      · simp [hv, ih (e - 1) (by omega)]
      · simp [hv]

theorem lookupDate_eq_none_of_lt (e : Int) (l : List (Int × ℚ))
    (h : ∀ q ∈ l, q.1 < e) : lookupDate l e = none := by
  induction l with
  | nil => rfl
  | cons q rest ih =>
    obtain ⟨ld, v⟩ := q
    have h1 : ld < e := h (ld, v) (List.mem_cons_self _ _)
    rw [lookupDate, if_neg (by omega : ¬ ld = e)]
    exact ih (fun p hp => h p (List.mem_cons_of_mem _ hp))

theorem streakLoop_of_lt (t : ℚ) (e : Int) (s : Nat) (l : List (Int × ℚ))
    (h : ∀ q ∈ l, q.1 < e) : streakLoop t l e s = s := by
  cases l with
  | nil => rfl
  | cons q rest =>
    obtain ⟨ld, v⟩ := q
    have h1 : ld < e := h (ld, v) (List.mem_cons_self _ _)
    have hne : ¬ (ld = e ∧ t ≤ v) := by rintro ⟨h2, -⟩; omega
    simp [streakLoop, hne, h1]

theorem streakSpecAux_fuel_congr (t : ℚ) :
    ∀ (fuel1 : Nat) (l : List (Int × ℚ)) (e : Int) (fuel2 : Nat),
    datesLE l e < fuel1 → datesLE l e < fuel2 →
    streakSpecAux t l fuel1 e = streakSpecAux t l fuel2 e := by
  intro fuel1
  induction fuel1 with
  | zero => intro l e fuel2 h1 _; omega
  | succ f1 ih =>
    intro l e fuel2 h1 h2
    cases fuel2 with
    | zero => omega
    | succ f2 =>
      simp only [streakSpecAux]
      cases hl : lookupDate l e with
      | none => rfl
      | some v =>
        by_cases hv : t ≤ v
        · have hstrict := datesLE_lt_of_lookup l e v hl
          simp only [if_pos hv]
          rw [ih l (e - 1) f2 (by omega) (by omega)]
        · simp [hv]

theorem streakLoop_eq_streakSpecAux (t : ℚ) :
    ∀ (l : List (Int × ℚ)), l.Pairwise (fun p q => q.1 < p.1) →
    ∀ (e : Int) (s : Nat) (fuel : Nat), datesLE l e < fuel →
    streakLoop t l e s = s + streakSpecAux t l fuel e := by
  intro l
  induction l with
  | nil =>
    intro _ e s fuel _
    rw [streakSpecAux_nil]
    rfl
  | cons q rest ih =>
    intro hpw e s fuel hfuel
    obtain ⟨d, v⟩ := q
    obtain ⟨hhead, hrest⟩ := List.pairwise_cons.mp hpw
    cases fuel with
    | zero => omega
    | succ f =>
      by_cases hd : d = e
      · subst hd
        by_cases hv : t ≤ v
        · rw [streakLoop, if_pos ⟨rfl, hv⟩]
          have hcount : datesLE rest d < f := by
            rw [datesLE_cons, if_pos (by omega : d ≤ d)] at hfuel
            omega
          have hcount2 : datesLE rest (d - 1) < f :=
            lt_of_le_of_lt (datesLE_mono rest (d - 1) d (by omega)) hcount
          rw [ih hrest (d - 1) (s + 1) f hcount2]
          have hlook : lookupDate ((d, v) :: rest) d = some v := by
            rw [lookupDate, if_pos rfl]
          simp only [streakSpecAux, hlook, if_pos hv]
          rw [streakSpecAux_cons_of_lt t d v rest f (d - 1) (by omega)]
          omega
        · rw [streakLoop, if_neg (by rintro ⟨-, hc⟩; exact hv hc), if_neg (by omega : ¬ d < d)]
          rw [streakLoop_of_lt t d s rest (fun p hp => hhead p hp)]
          have hlook : lookupDate ((d, v) :: rest) d = some v := by
            rw [lookupDate, if_pos rfl]
          simp only [streakSpecAux, hlook, if_neg hv]
          omega
      · by_cases hlt : d < e
        · rw [streakLoop, if_neg (by rintro ⟨hc, -⟩; exact hd hc), if_pos hlt]
          have hnone : lookupDate ((d, v) :: rest) e = none := by
            apply lookupDate_eq_none_of_lt
            intro p hp
            rcases List.mem_cons.mp hp with rfl | hp2
            · exact hlt
            · exact lt_trans (hhead p hp2) hlt
          simp only [streakSpecAux, hnone]
          omega
        · have hgt : e < d := by omega
          rw [streakLoop, if_neg (by rintro ⟨hc, -⟩; exact hd hc), if_neg hlt]
          have hcount : datesLE rest e < f + 1 := by
            rw [datesLE_cons, if_neg (by omega : ¬ d ≤ e)] at hfuel
            omega
          rw [ih hrest e s (f + 1) hcount]
          rw [streakSpecAux_cons_of_lt t d v rest (f + 1) e hgt]

theorem insertByDateDesc_perm (p : Int × ℚ) :
    ∀ (l : List (Int × ℚ)), (insertByDateDesc p l).Perm (p :: l) := by
  intro l
  induction l with
  | nil => exact List.Perm.refl _
  | cons q rest ih =>
    by_cases h : p.1 < q.1
    · rw [insertByDateDesc, if_pos h]
      exact (List.Perm.cons q ih).trans (List.Perm.swap p q rest)
    · rw [insertByDateDesc, if_neg h]

theorem sortByDateDesc_perm : ∀ (l : List (Int × ℚ)), (sortByDateDesc l).Perm l := by
  intro l
  induction l with
  | nil => exact List.Perm.refl _
  | cons p rest ih =>
    exact (insertByDateDesc_perm p (sortByDateDesc rest)).trans (List.Perm.cons p ih)

theorem insertByDateDesc_pairwise (p : Int × ℚ) :
    ∀ (l : List (Int × ℚ)), l.Pairwise (fun a b => b.1 ≤ a.1) →
    (insertByDateDesc p l).Pairwise (fun a b => b.1 ≤ a.1) := by
  intro l
  induction l with
  | nil => intro _; simp [insertByDateDesc]
  | cons q rest ih =>
    intro hpw
    obtain ⟨hq, hrest⟩ := List.pairwise_cons.mp hpw
    by_cases h : p.1 < q.1
    · rw [insertByDateDesc, if_pos h]
      refine List.pairwise_cons.mpr ⟨?_, ih hrest⟩
      intro b hb
      have hb2 : b ∈ p :: rest := (insertByDateDesc_perm p rest).mem_iff.mp hb
      rcases List.mem_cons.mp hb2 with rfl | hb3
      · omega
      · exact hq b hb3
    · rw [insertByDateDesc, if_neg h]
      refine List.pairwise_cons.mpr ⟨?_, hpw⟩
      intro b hb
      rcases List.mem_cons.mp hb with rfl | hb2
      · omega
      · have := hq b hb2
        omega

theorem sortByDateDesc_pairwise : ∀ (l : List (Int × ℚ)),
    (sortByDateDesc l).Pairwise (fun a b => b.1 ≤ a.1) := by
  intro l
  induction l with
  | nil => simp [sortByDateDesc]
  | cons p rest ih => exact insertByDateDesc_pairwise p _ ih

theorem lookupDate_eq_none_iff (d : Int) :
    ∀ (l : List (Int × ℚ)), lookupDate l d = none ↔ d ∉ l.map Prod.fst := by
  intro l
  induction l with
  | nil => simp [lookupDate]
  | cons q rest ih =>
    obtain ⟨ld, v⟩ := q
    by_cases h : ld = d
    · subst h
      simp [lookupDate]
    · rw [lookupDate, if_neg h, List.map_cons, List.mem_cons, not_or]
      constructor
      · intro hl
        exact ⟨fun hc => h hc.symm, ih.mp hl⟩
      · rintro ⟨-, hnm⟩
        exact ih.mpr hnm

theorem lookupDate_eq_some_iff (d : Int) (v : ℚ) :
    ∀ (l : List (Int × ℚ)), (l.map Prod.fst).Nodup →
    (lookupDate l d = some v ↔ (d, v) ∈ l) := by
  intro l
  induction l with
  | nil => intro _; simp [lookupDate]
  | cons q rest ih =>
    intro hnd
    obtain ⟨ld, w⟩ := q
    rw [List.map_cons, List.nodup_cons] at hnd
    obtain ⟨hnotin, hnd_rest⟩ := hnd
    by_cases h : ld = d
    · subst h
      rw [lookupDate, if_pos rfl, List.mem_cons]
      constructor
      · intro hv
        left
        injection hv with hv
        rw [hv]
      · rintro (heq | hmem)
        · cases heq
          rfl
        · exact absurd (List.mem_map_of_mem Prod.fst hmem) hnotin
    · rw [lookupDate, if_neg h, List.mem_cons, ih hnd_rest]
      constructor
      · intro hm
        right
        exact hm
      · rintro (heq | hm)
        · have hdl : d = ld := congrArg Prod.fst heq
          exact absurd hdl.symm h
        · exact hm

theorem lookupDate_perm_eq (l1 l2 : List (Int × ℚ)) (hperm : l1.Perm l2)
    (hnd : (l1.map Prod.fst).Nodup) (d : Int) :
    lookupDate l1 d = lookupDate l2 d := by
  have hnd2 : (l2.map Prod.fst).Nodup := ((hperm.map Prod.fst).nodup_iff).mp hnd
  cases h1 : lookupDate l1 d with
  | none =>
    have hni : d ∉ l1.map Prod.fst := (lookupDate_eq_none_iff d l1).mp h1
    have h2 : d ∉ l2.map Prod.fst := fun hc => hni ((hperm.map Prod.fst).mem_iff.mpr hc)
    exact ((lookupDate_eq_none_iff d l2).mpr h2).symm
  | some v =>
    have hm : (d, v) ∈ l1 := (lookupDate_eq_some_iff d v l1 hnd).mp h1
    have hm2 : (d, v) ∈ l2 := hperm.mem_iff.mp hm
    exact ((lookupDate_eq_some_iff d v l2 hnd2).mpr hm2).symm

theorem streakSpecAux_congr (t : ℚ) (l1 l2 : List (Int × ℚ))
    (hl : ∀ d, lookupDate l1 d = lookupDate l2 d) :
    ∀ (fuel : Nat) (e : Int), streakSpecAux t l1 fuel e = streakSpecAux t l2 fuel e := by
  intro fuel
  induction fuel with
  | zero => intro e; rfl
  | succ f ih =>
    intro e
    simp only [streakSpecAux, hl e]
    cases lookupDate l2 e with
    | none => rfl
    | some v =>
      by_cases hv : t ≤ v
      · simp [hv, ih]
      · simp [hv]

/-- C1: on any habit log history (at most one entry per calendar date, the
habit invariant), both registered strategies' calculate_streak return the
number of consecutive calendar days ending today whose logged value meets the
target, stopping at the first missing or below-target day; future-dated logs
and completed days in runs disconnected from today contribute nothing. -/
theorem C1_calculate_streak (today : Int) (target : ℚ) (logs : List (Int × ℚ))
    (hnd : (logs.map Prod.fst).Nodup) :
    BooleanHabitStrategy.calculate_streak today logs target = streakSpec today logs target
    ∧ NumericHabitStrategy.calculate_streak today logs target = streakSpec today logs target := by
  have hmain : calculate_streak_impl today logs target = streakSpec today logs target := by
    by_cases hnil : logs = []
    · subst hnil
      simp [calculate_streak_impl, streakSpec, streakSpecAux_nil]
    · have hperm := sortByDateDesc_perm logs
      have hsorted := sortByDateDesc_pairwise logs
      have hnds : ((sortByDateDesc logs).map Prod.fst).Nodup :=
        ((hperm.map Prod.fst).nodup_iff).mpr hnd
      have hne2 : (sortByDateDesc logs).Pairwise (fun a b => a.1 ≠ b.1) :=
        List.pairwise_map.mp hnds
      have hstrict : (sortByDateDesc logs).Pairwise (fun a b => b.1 < a.1) :=
        List.Pairwise.imp (fun hab => lt_of_le_of_ne hab.1 (Ne.symm hab.2))
          (hsorted.and hne2)
      have hfuel : datesLE (sortByDateDesc logs) today < logs.length + 1 := by
        have h1 := datesLE_le_length (sortByDateDesc logs) today
        have h2 : (sortByDateDesc logs).length = logs.length := hperm.length_eq
        omega
      have hloop := streakLoop_eq_streakSpecAux target (sortByDateDesc logs) hstrict
        today 0 (logs.length + 1) hfuel
      have hcong := streakSpecAux_congr target (sortByDateDesc logs) logs
        (fun d => lookupDate_perm_eq _ _ hperm hnds d) (logs.length + 1) today
      rw [calculate_streak_impl, if_neg hnil, hloop, hcong]
      rw [streakSpec]
      omega
  exact ⟨hmain, hmain⟩

/-- Witness for C1 at a concrete history: logs for days 10, 9 and 7 with a gap
at day 8 give a streak of 2 under both reckonings. -/
theorem C1_witness :
    (([((10 : Int), (1 : ℚ)), (9, 1), (7, 1)].map Prod.fst).Nodup)
    ∧ BooleanHabitStrategy.calculate_streak 10 [((10 : Int), (1 : ℚ)), (9, 1), (7, 1)] 1 =
        streakSpec 10 [((10 : Int), (1 : ℚ)), (9, 1), (7, 1)] 1
    ∧ streakSpec 10 [((10 : Int), (1 : ℚ)), (9, 1), (7, 1)] 1 = 2 :=
  ⟨by decide,
   (C1_calculate_streak 10 1 [((10 : Int), (1 : ℚ)), (9, 1), (7, 1)] (by decide)).1,
   by decide⟩

theorem allCompleted_eq_true_iff (d : Int) :
    ∀ (l : List Item), Item.allCompleted l d = true ↔ ∀ c ∈ l, c.is_completed d = true := by
  intro l
  induction l with
  | nil => simp [Item.allCompleted]
  | cons x rest ih => simp [Item.allCompleted, ih]

/-- C2: a group is completed on a date exactly when it has at least one child
and every child (a child group judged by its own recursive rule) is completed
on that date; in particular an empty group is never completed. -/
theorem C2_group_is_completed (id name description : String) (created_at : Int)
    (habits : List Item) (d : Int) :
    (Item.group id name description created_at habits).is_completed d = true ↔
      habits ≠ [] ∧ ∀ child ∈ habits, child.is_completed d = true := by
  rw [Item.is_completed]
  by_cases h : habits.isEmpty
  · have hnil : habits = [] := List.isEmpty_iff.mp h
    subst hnil
    simp
  · have hne : habits ≠ [] := fun hc => h (by rw [hc]; rfl)
    rw [if_neg h, allCompleted_eq_true_iff]
    exact ⟨fun hall => ⟨hne, hall⟩, fun hand => hand.2⟩

instance (l : List Item) : Decidable (l = []) :=
  match l with
  | [] => isTrue rfl
  | _ :: _ => isFalse (fun hc => List.noConfusion hc)

/-- C3: group progress is the percentage of its directly completed children
(each child counted once, judged by its own recursive is_completed), lies
between 0 and 100, and is 0.0 for an empty group. -/
theorem C3_group_get_progress (id name description : String) (created_at : Int)
    (habits : List Item) (d : Int) :
    (Item.group id name description created_at habits).get_progress d =
      (if habits = [] then 0 else
        100 * ((habits.countP (fun child => child.is_completed d) : ℚ) / (habits.length : ℚ)))
    ∧ 0 ≤ (Item.group id name description created_at habits).get_progress d
    ∧ (Item.group id name description created_at habits).get_progress d ≤ 100 := by
  have hcount : habits.countP (fun child => child.is_completed d) ≤ habits.length :=
    List.countP_le_length _
  rw [Item.get_progress]
  by_cases hnil : habits = []
  · subst hnil
    simp
  · have hemp : ¬ habits.isEmpty := by
      cases habits with
      | nil => exact absurd rfl hnil
      | cons x rest => simp
    have hlen : 0 < habits.length := List.length_pos.mpr hnil
    have hlenq : (0 : ℚ) < (habits.length : ℚ) := by exact_mod_cast hlen
    have hcq : ((habits.countP (fun child => child.is_completed d) : ℚ)) ≤ (habits.length : ℚ) := by
      exact_mod_cast hcount
    have hratio : ((habits.countP (fun child => child.is_completed d) : ℚ)) / (habits.length : ℚ) ≤ 1 :=
      (div_le_one hlenq).mpr hcq
    have hratio0 : (0 : ℚ) ≤ ((habits.countP (fun child => child.is_completed d) : ℚ)) / (habits.length : ℚ) := by
      positivity
    rw [if_neg hemp, if_neg hnil]
    refine ⟨by ring, by positivity, ?_⟩
    nlinarith

theorem getProgressLogs_updateLogs (logs : List Log) (d : Int) (v : ℚ) :
    getProgressLogs (updateLogs logs d v) d = v := by
  induction logs with
  | nil => simp [updateLogs, getProgressLogs]
  | cons log rest ih =>
    by_cases h : log.date = d
    · rw [updateLogs, if_pos h]
      rw [getProgressLogs, if_pos h]
    · rw [updateLogs, if_neg h]
      rw [getProgressLogs, if_neg h]
      exact ih

/-- C4: a value accepted by the strategy validation, once logged with add_log,
is read back exactly by get_progress on the same date. -/
theorem C4_add_log_get_progress (habit : Habit) (d : Int) (v : ℚ)
    (hv : habit.strategy.validate_value v = true) :
    ∃ habit2, habit.add_log d v = .ok habit2 ∧ habit2.get_progress d = v := by
  refine ⟨{ habit with logs := updateLogs habit.logs d v }, ?_, ?_⟩
  · rw [Habit.add_log, hv]
    rfl
  · show getProgressLogs (updateLogs habit.logs d v) d = v
    exact getProgressLogs_updateLogs habit.logs d v

/-- Concrete boolean habit used by the witnesses below. -/
def exampleHabit : Habit :=
  { id := "h1", name := "Read", description := "ten pages", category := .learning,
    habit_type := .boolean, target := 1, created_at := 0, logs := [] }

/-- Witness for C4: logging the valid value 1.0 on day 5 and reading day 5
back yields 1.0. -/
theorem C4_witness :
    ∃ habit2, exampleHabit.add_log 5 1 = .ok habit2 ∧ habit2.get_progress 5 = 1 :=
  C4_add_log_get_progress exampleHabit 5 1 (by decide)

/-- C5: a value rejected by the strategy validation makes add_log raise a
validation error carrying the hint that names the accepted range for the
habit type, and no updated habit is ever produced. -/
theorem C5_add_log_rejected (habit : Habit) (d : Int) (v : ℚ)
    (hv : habit.strategy.validate_value v = false) :
    habit.add_log d v = .error ⟨v, habit.habit_type, habit.get_validation_hint⟩
    ∧ (habit.habit_type = .boolean → habit.get_validation_hint = "0.0 or 1.0 only")
    ∧ (habit.habit_type = .numeric → habit.get_validation_hint = "any non-negative number")
    ∧ ∀ habit2, habit.add_log d v ≠ .ok habit2 := by
  have herr : habit.add_log d v = .error ⟨v, habit.habit_type, habit.get_validation_hint⟩ := by
    rw [Habit.add_log, hv]
    rfl
  refine ⟨herr, ?_, ?_, ?_⟩
  · intro ht
    simp only [Habit.get_validation_hint, ht]
    decide
  · intro ht
    simp only [Habit.get_validation_hint, ht]
    decide
  · intro habit2 hc
    rw [herr] at hc
    exact Except.noConfusion hc

/-- Witness for C5: logging 2.0 on a boolean habit is rejected with the hint
naming the accepted range. -/
theorem C5_witness :
    exampleHabit.add_log 5 2 =
      .error ⟨2, HabitType.boolean, exampleHabit.get_validation_hint⟩
    ∧ exampleHabit.get_validation_hint = "0.0 or 1.0 only" :=
  ⟨(C5_add_log_rejected exampleHabit 5 2 (by decide)).1,
   (C5_add_log_rejected exampleHabit 5 2 (by decide)).2.1 rfl⟩

theorem mapDate_updateLogs (logs : List Log) (d : Int) (v : ℚ) :
    (updateLogs logs d v).map Log.date =
      if d ∈ logs.map Log.date then logs.map Log.date else logs.map Log.date ++ [d] := by
  induction logs with
  | nil => simp [updateLogs]
  | cons log rest ih =>
    by_cases h : log.date = d
    · rw [updateLogs, if_pos h]
      have hmem : d ∈ (log :: rest).map Log.date := by
        rw [List.map_cons, h]
        exact List.mem_cons_self _ _
      rw [if_pos hmem, List.map_cons, List.map_cons]
    · rw [updateLogs, if_neg h, List.map_cons, List.map_cons, ih]
      by_cases hm : d ∈ rest.map Log.date
      · rw [if_pos hm, if_pos (List.mem_cons_of_mem _ hm)]
      · have hnm : d ∉ log.date :: rest.map Log.date := by
          intro hc
          rcases List.mem_cons.mp hc with heq | hmem2
          · exact h heq.symm
          · exact hm hmem2
        rw [if_neg hm, if_neg hnm, List.cons_append]

theorem countP_date_updateLogs (logs : List Log) (d : Int) (v : ℚ)
    (hnd : (logs.map Log.date).Nodup) :
    (updateLogs logs d v).countP (fun log => decide (log.date = d)) = 1 := by
  induction logs with
  | nil => simp [updateLogs]
  | cons log rest ih =>
    rw [List.map_cons, List.nodup_cons] at hnd
    obtain ⟨hni, hnd_rest⟩ := hnd
    by_cases h : log.date = d
    · rw [updateLogs, if_pos h]
      have hz : rest.countP (fun log => decide (log.date = d)) = 0 := by
        rw [List.countP_eq_zero]
        intro log2 hmem
        simp only [decide_eq_true_eq]
        intro hc
        apply hni
        rw [h]
        rw [← hc]
        exact List.mem_map_of_mem Log.date hmem
      simp [List.countP_cons, h, hz]
    · rw [updateLogs, if_neg h]
      simp [List.countP_cons, h, ih hnd_rest]

/-- C6: on a habit whose logs hold at most one entry per date, a successful
add_log keeps that invariant, leaves exactly one entry for the logged date,
and that entry holds the new value (overwrite, never a duplicate). -/
theorem C6_one_entry_per_date (habit : Habit) (d : Int) (v : ℚ) (habit2 : Habit)
    (hnd : (habit.logs.map Log.date).Nodup)
    (hok : habit.add_log d v = .ok habit2) :
    (habit2.logs.map Log.date).Nodup
    ∧ habit2.logs.countP (fun log => decide (log.date = d)) = 1
    ∧ habit2.get_progress d = v := by
  rw [Habit.add_log] at hok
  by_cases hval : habit.strategy.validate_value v
  · rw [hval] at hok
    simp only [Bool.not_true, Bool.false_eq_true, if_false] at hok
    injection hok with hok
    subst hok
    refine ⟨?_, ?_, ?_⟩
    · show ((updateLogs habit.logs d v).map Log.date).Nodup
      rw [mapDate_updateLogs]
      by_cases hm : d ∈ habit.logs.map Log.date
      · rw [if_pos hm]
        exact hnd
      · rw [if_neg hm]
        have hperm := List.perm_append_singleton d (habit.logs.map Log.date)
        rw [hperm.nodup_iff]
        exact List.nodup_cons.mpr ⟨hm, hnd⟩
    · exact countP_date_updateLogs habit.logs d v hnd
    · show getProgressLogs (updateLogs habit.logs d v) d = v
      exact getProgressLogs_updateLogs habit.logs d v
  · rw [Bool.not_eq_true] at hval
    rw [hval] at hok
    exact Except.noConfusion hok

/-- Concrete habit with one logged day, for the C6 witness. -/
def exampleLogged : Habit :=
  { exampleHabit with logs := [⟨3, 1⟩] }

/-- Witness for C6: overwriting day 3 with 0.0 keeps one entry for day 3 and
reads back 0.0. -/
theorem C6_witness :
    (({ exampleLogged with logs := [⟨3, 0⟩] } : Habit).logs.map Log.date).Nodup
    ∧ ({ exampleLogged with logs := [⟨3, 0⟩] } : Habit).logs.countP
        (fun log => decide (log.date = 3)) = 1
    ∧ ({ exampleLogged with logs := [⟨3, 0⟩] } : Habit).get_progress 3 = 0 :=
  C6_one_entry_per_date exampleLogged 3 0 _ (by decide) (by rfl)

/-- C7 counterexample: the report of a concrete habit has no key named kind
and no key named completed_today; the variant tag sits under the key type and
the completion flag under is_completed_today; likewise a concrete group
report has no sub_habit_names key, its child names sit under sub_habits. -/
theorem C7_counterexample :
    (StatisticsVisitor.visit_habit 0 exampleHabit).lookup "kind" = none
    ∧ (StatisticsVisitor.visit_habit 0 exampleHabit).lookup "completed_today" = none
    ∧ (StatisticsVisitor.visit_habit 0 exampleHabit).lookup "type" = some (.str "habit")
    ∧ (StatisticsVisitor.visit_habit_group 0 "g1" "Morning" "d" 0 []).lookup "sub_habit_names" = none
    ∧ (StatisticsVisitor.visit_habit_group 0 "g1" "Morning" "d" 0 []).lookup "sub_habits" = some (.strList []) := by
  refine ⟨?_, ?_, ?_, ?_, ?_⟩ <;> rfl

/-- C7 (amended): the per-item report is a structured dictionary whose shape
depends on the variant; for a leaf the keys are type (habit), name,
habit_type, category, completions (count of logged days meeting the target
over the full history), current_streak, target, average_value (mean of all
logged values rounded to 2 decimals, 0.0 if no logs), total_logs and
is_completed_today; for a group the keys are type (routine), name,
sub_habits_count, progress_today (rounded to 2 decimals), is_completed_today
and sub_habits (the child names). -/
theorem C7_report_schema (today : Int) (habit : Habit)
    (id name description : String) (created_at : Int) (habits : List Item) :
    (StatisticsVisitor.visit_habit today habit).map Prod.fst =
      ["type", "name", "habit_type", "category", "completions", "current_streak",
       "target", "average_value", "total_logs", "is_completed_today"]
    ∧ (StatisticsVisitor.visit_habit today habit).lookup "type" = some (.str "habit")
    ∧ (StatisticsVisitor.visit_habit today habit).lookup "name" = some (.str habit.name)
    ∧ (StatisticsVisitor.visit_habit today habit).lookup "habit_type" =
        some (.str habit.habit_type.value)
    ∧ (StatisticsVisitor.visit_habit today habit).lookup "category" =
        some (.str habit.category.value)
    ∧ (StatisticsVisitor.visit_habit today habit).lookup "completions" =
        some (.int (habit.logs.countP (fun log => habit.target ≤ log.value)))
    ∧ (StatisticsVisitor.visit_habit today habit).lookup "current_streak" =
        some (.int (habit.calculate_streak today))
    ∧ (StatisticsVisitor.visit_habit today habit).lookup "target" = some (.num habit.target)
    ∧ (StatisticsVisitor.visit_habit today habit).lookup "average_value" =
        some (.num (round2 (if habit.logs = [] then 0
          else (habit.logs.map Log.value).sum / (habit.logs.length : ℚ))))
    ∧ (StatisticsVisitor.visit_habit today habit).lookup "total_logs" =
        some (.int habit.logs.length)
    ∧ (StatisticsVisitor.visit_habit today habit).lookup "is_completed_today" =
        some (.bool (habit.is_completed today))
    ∧ (StatisticsVisitor.visit_habit_group today id name description created_at habits).map Prod.fst =
      ["type", "name", "sub_habits_count", "progress_today", "is_completed_today", "sub_habits"]
    ∧ (StatisticsVisitor.visit_habit_group today id name description created_at habits).lookup "type" =
        some (.str "routine")
    ∧ (StatisticsVisitor.visit_habit_group today id name description created_at habits).lookup "sub_habits_count" =
        some (.int habits.length)
    ∧ (StatisticsVisitor.visit_habit_group today id name description created_at habits).lookup "progress_today" =
        some (.num (round2 ((Item.group id name description created_at habits).get_progress today)))
    ∧ (StatisticsVisitor.visit_habit_group today id name description created_at habits).lookup "is_completed_today" =
        some (.bool ((Item.group id name description created_at habits).is_completed today))
    ∧ (StatisticsVisitor.visit_habit_group today id name description created_at habits).lookup "sub_habits" =
        some (.strList (habits.map Item.name)) := by
  have havg : (if habit.logs.isEmpty then (0 : ℚ)
        else (habit.logs.map Log.value).sum / (habit.logs.length : ℚ))
      = (if habit.logs = [] then (0 : ℚ)
        else (habit.logs.map Log.value).sum / (habit.logs.length : ℚ)) := by
    cases habit.logs <;> rfl
  refine ⟨rfl, rfl, rfl, rfl, rfl, rfl, rfl, rfl, ?_, rfl, rfl, rfl, rfl, rfl, rfl, rfl, rfl⟩
  rw [← havg]
  rfl

/-- C9: every constructible habit has habit_type boolean or numeric; the
factory registers the time-bounded strategy under the tag time, yet no habit
ever selects it, so its rules are unreachable through the Habit interface. -/
theorem C9_time_strategy_unreachable :
    (∀ t : HabitType, t = .boolean ∨ t = .numeric)
    ∧ HabitStrategyFactory.create "time" = some TimeBasedHabitStrategy
    ∧ (∀ habit : Habit, habit.strategy ≠ TimeBasedHabitStrategy) := by
  refine ⟨fun t => by cases t <;> simp, rfl, ?_⟩
  intro habit hc
  obtain ⟨idf, nmf, dsf, catf, htf, tgf, caf, lgf⟩ := habit
  cases htf with
  | boolean =>
    have hs : ({ id := idf, name := nmf, description := dsf, category := catf,
                 habit_type := HabitType.boolean, target := tgf, created_at := caf,
                 logs := lgf } : Habit).strategy = BooleanHabitStrategy := rfl
    rw [hs] at hc
    have hv := congrFun (congrArg HabitStrategy.validate_value hc) 2
    exact absurd hv (by decide)
  | numeric =>
    have hs : ({ id := idf, name := nmf, description := dsf, category := catf,
                 habit_type := HabitType.numeric, target := tgf, created_at := caf,
                 logs := lgf } : Habit).strategy = NumericHabitStrategy := rfl
    rw [hs] at hc
    have hv := congrFun (congrArg HabitStrategy.validate_value hc) 2000
    exact absurd hv (by decide)

/-- C10: add_log restricts only the value, never the date: for every date
whatsoever (a future date or one before created_at included) the write
succeeds with the value read back on that date exactly when the value passes
the strategy validation, and only a failing validation is ever rejected. -/
theorem C10_no_date_restriction (habit : Habit) (d : Int) (v : ℚ) :
    (∃ habit2, habit.add_log d v = .ok habit2 ∧ habit2.get_progress d = v) ↔
      habit.strategy.validate_value v = true := by
  constructor
  · rintro ⟨habit2, hok, -⟩
    by_cases hval : habit.strategy.validate_value v
    · exact hval
    · rw [Bool.not_eq_true] at hval
      rw [Habit.add_log, hval] at hok
      exact Except.noConfusion hok
  · intro hv
    refine ⟨{ habit with logs := updateLogs habit.logs d v }, ?_, ?_⟩
    · rw [Habit.add_log, hv]
      rfl
    · show getProgressLogs (updateLogs habit.logs d v) d = v
      exact getProgressLogs_updateLogs habit.logs d v

theorem mem_keys_of_get_by_id (r : Repo) (k : String) (x : Item)
    (h : r.get_by_id k = some x) : k ∈ r.map Prod.fst := by
  induction r with
  | nil => simp [Repo.get_by_id, List.lookup] at h
  | cons p rest ih =>
    obtain ⟨a, b⟩ := p
    by_cases hk : k = a
    · rw [List.map_cons, hk]
      exact List.mem_cons_self _ _
    · rw [Repo.get_by_id, List.lookup] at h
      rw [beq_eq_false_iff_ne.mpr hk] at h
      exact List.mem_cons_of_mem _ (ih h)

theorem get_by_id_append_singleton (r : Repo) (k a : String) (x : Item) (h : k ≠ a) :
    Repo.get_by_id (r ++ [(a, x)]) k = Repo.get_by_id r k := by
  induction r with
  | nil =>
    show List.lookup k [(a, x)] = List.lookup k []
    simp [List.lookup, beq_eq_false_iff_ne.mpr h]
  | cons p rest ih =>
    obtain ⟨b, y⟩ := p
    show List.lookup k ((b, y) :: (rest ++ [(a, x)])) = List.lookup k ((b, y) :: rest)
    rw [List.lookup, List.lookup]
    cases hk : (k == b) with
    | true => rfl
    | false => exact ih

theorem save_fresh (r : Repo) (item : Item) (h : item.id ∉ r.map Prod.fst) :
    Repo.save r item = r ++ [(item.id, item)] := by
  induction r with
  | nil => rfl
  | cons p rest ih =>
    obtain ⟨k, v⟩ := p
    rw [List.map_cons, List.mem_cons, not_or] at h
    obtain ⟨h1, h2⟩ := h
    rw [Repo.save, if_neg (fun hc => h1 hc.symm), ih h2, List.cons_append]

theorem delete_append_fresh (r : Repo) (a : String) (x : Item) (h : a ∉ r.map Prod.fst) :
    Repo.delete (r ++ [(a, x)]) a = (true, r) := by
  induction r with
  | nil => simp [Repo.delete]
  | cons p rest ih =>
    obtain ⟨k, v⟩ := p
    rw [List.map_cons, List.mem_cons, not_or] at h
    obtain ⟨h1, h2⟩ := h
    rw [List.cons_append, Repo.delete, if_neg (fun hc => h1 hc.symm), ih h2]

/-- C8: logging progress against an item that is a group is rejected — the
tracker produces no logged value, and the endpoint reports the 400 rejection
to the caller — with the repository unchanged; adding a child to an item that
is not a group is likewise rejected (add_to_routine reports false, the
endpoint reports the 400 rejection) and, the freshly created child id being
fresh, the repository ends unchanged. -/
theorem C8_invalid_operations (r : Repo) (today : Int) (value : ℚ) (acc : Bool)
    (gid gi gn gd : String) (gc : Int) (ghabits : List Item)
    (hg : r.get_by_id gid = some (.group gi gn gd gc ghabits))
    (pid : String) (pdata : Habit)
    (hp : r.get_by_id pid = some (.habit pdata))
    (child : Item)
    (new_id nm ds : String) (cat : Category) (ht : HabitType) (tg : ℚ) (ca : Int)
    (hfresh : new_id ∉ r.map Prod.fst) :
    ProgressTracker.log_progress r today gid value acc = .ok (none, r)
    ∧ Api.log_progress r today gid value =
        .ok (.error (.badRequest "Cannot log progress for routines, only individual habits"))
    ∧ HabitManager.add_to_routine r pid child = (false, r)
    ∧ Api.add_sub_habit r pid new_id nm ds cat ht tg ca =
        (.error (.badRequest "Parent not found or is not a routine"), r) := by
  have h1 : ProgressTracker.log_progress r today gid value acc = .ok (none, r) := by
    rw [ProgressTracker.log_progress, hg]
  have h1t : ProgressTracker.log_progress r today gid value true = .ok (none, r) := by
    rw [ProgressTracker.log_progress, hg]
  have h3 : HabitManager.add_to_routine r pid child = (false, r) := by
    rw [HabitManager.add_to_routine, hp]
  refine ⟨h1, ?_, h3, ?_⟩
  · simp only [Api.log_progress, h1t, hg]
  · have hne : pid ≠ new_id := by
      intro hc
      exact hfresh (hc ▸ mem_keys_of_get_by_id r pid (.habit pdata) hp)
    have e1 : Repo.save r (Item.habit ⟨new_id, nm, ds, cat, ht, tg, ca, []⟩) =
        r ++ [(new_id, Item.habit ⟨new_id, nm, ds, cat, ht, tg, ca, []⟩)] :=
      save_fresh r _ hfresh
    have e2 : HabitManager.add_to_routine
        (r ++ [(new_id, Item.habit ⟨new_id, nm, ds, cat, ht, tg, ca, []⟩)]) pid
        (Item.habit ⟨new_id, nm, ds, cat, ht, tg, ca, []⟩) =
        (false, r ++ [(new_id, Item.habit ⟨new_id, nm, ds, cat, ht, tg, ca, []⟩)]) := by
      rw [HabitManager.add_to_routine,
        get_by_id_append_singleton r pid new_id _ hne, hp]
    have e3 : Repo.delete
        (r ++ [(new_id, Item.habit ⟨new_id, nm, ds, cat, ht, tg, ca, []⟩)]) new_id =
        (true, r) :=
      delete_append_fresh r new_id _ hfresh
    simp only [Api.add_sub_habit, e1, e2, e3]

/-- Concrete repository for the C8 witness: one group and one leaf habit. -/
def exampleRepo : Repo :=
  [("g1", .group "g1" "Morning" "routine" 0 []), ("h1", .habit exampleHabit)]

/-- Witness for C8: on the concrete repository, logging against the group g1
and attaching a child to the leaf h1 are both rejected with the repository
unchanged. -/
theorem C8_witness :
    ProgressTracker.log_progress exampleRepo 0 "g1" 1 true = .ok (none, exampleRepo)
    ∧ Api.log_progress exampleRepo 0 "g1" 1 =
        .ok (.error (.badRequest "Cannot log progress for routines, only individual habits"))
    ∧ HabitManager.add_to_routine exampleRepo "h1" (.habit exampleHabit) = (false, exampleRepo)
    ∧ Api.add_sub_habit exampleRepo "h1" "x9" "Stretch" "d" .health .boolean 1 0 =
        (.error (.badRequest "Parent not found or is not a routine"), exampleRepo) :=
  C8_invalid_operations exampleRepo 0 1 true "g1" "g1" "Morning" "routine" 0 [] rfl
    "h1" exampleHabit rfl (.habit exampleHabit) "x9" "Stretch" "d" .health .boolean 1 0
    (by decide)
